import Mathlib

/-!
Verification development for the transaction-orderer core, the mempool
peer-prioritization comparator, and the outbound-RPC cleanup task of this
repository.

The orderer library itself (crates referenced from
`execution/transaction-orderer/src/main.rs`) is not part of the source tree;
its data model and algorithms are modelled from the specification
(sections 3 to 4.9), as marked on each definition.  The mempool priority code
(`mempool/src/shared_mempool/priority.rs`) and the RPC matcher
(`network/framework2/src/application/interface.rs`) are embedded directly
from the source.
-/

/-! ## Part 1: definitions -/

/-- Modelled from the spec: the Transaction Hint of section 3 - an identifier
plus read and write footprints over compressed integer keys. -/
structure Txn where
  txnId : Nat
  reads : List Nat
  writes : List Nat
deriving DecidableEq, Inhabited

/-- Modelled from the spec: the Dependency Edge rule of section 3 -
transactions `a` (earlier) and `b` (later) conflict when
`a.writes ∩ (b.reads ∪ b.writes) ≠ ∅` or `b.writes ∩ a.reads ≠ ∅`. -/
def conflictB (a b : Txn) : Bool :=
  a.writes.any (fun k => b.reads.contains k || b.writes.contains k) ||
  b.writes.any (fun k => a.reads.contains k)

/-- The transaction at position `i` of a block (default transaction out of range). -/
def txnAt (txns : List Txn) (i : Nat) : Txn := txns.getD i default

/-- Conflict between the transactions at positions `i` and `j` of a block. -/
def conflictsAt (txns : List Txn) (i j : Nat) : Bool :=
  conflictB (txnAt txns i) (txnAt txns j)

/-- Maximum of `f i + 1` over a list of indices, `0` for the empty list.
This realizes the rule `level = 1 + max(level of conflicting priors), or 0 if
none` of spec section 4.5. -/
def foldrMax (f : Nat → Nat) (l : List Nat) : Nat :=
  l.foldr (fun i m => Nat.max (f i + 1) m) 0

/-- Modelled from the spec: the online leveling scan of sections 4.5-4.7,
generic in the edge predicate `e i j` (`i` is an already-leveled predecessor
of the incoming transaction `j`).  `levelsAux e n` is the list of levels of
the first `n` transactions. -/
def levelsAux (e : Nat → Nat → Bool) : Nat → List Nat
  | 0 => []
  | n + 1 =>
    let prev := levelsAux e n
    prev ++ [foldrMax (fun i => prev.getD i 0) ((List.range n).filter (fun i => e i n))]

/-- The dependency level of transaction `j` under edge predicate `e`. -/
def levelFn (e : Nat → Nat → Bool) (j : Nat) : Nat :=
  (levelsAux e (j + 1)).getD j 0

/-- Modelled from the spec: section 4.5, the sequential dynamic dependency
orderer.  Level of `j` = 1 + max level of all conflicting prior transactions,
or 0 if none. -/
def seqLevel (txns : List Txn) : Nat → Nat :=
  levelFn (fun i j => conflictsAt txns i j)

/-- Modelled from the spec: section 4.6, the window-bounded variant - state
older than `w` transactions is evicted, so only conflicts with the last `w`
transactions (`j ≤ i + w`) are detected. -/
def winLevel (w : Nat) (txns : List Txn) : Nat → Nat :=
  levelFn (fun i j => decide (j ≤ i + w) && conflictsAt txns i j)

/-- Whether transaction `t` writes key `k`. -/
def writesKey (t : Txn) (k : Nat) : Bool := t.writes.contains k

/-- Whether transaction `t` reads key `k`. -/
def readsKey (t : Txn) (k : Nat) : Bool := t.reads.contains k

/-- Whether transaction `t` reads or writes key `k`. -/
def accessesKey (t : Txn) (k : Nat) : Bool := readsKey t k || writesKey t k

/-- The greatest position `m < j` whose transaction writes key `k`, if any. -/
def lastWriterBefore (txns : List Txn) (k : Nat) : Nat → Option Nat
  | 0 => none
  | j + 1 =>
    if writesKey (txnAt txns j) k then some j else lastWriterBefore txns k j

/-- No transaction strictly between positions `i` and `j` writes key `k`. -/
def noWriterBetween (txns : List Txn) (k i j : Nat) : Bool :=
  ((List.range j).filter (fun m => decide (i < m) && writesKey (txnAt txns m) k)).isEmpty

/-- Modelled from the spec: section 4.7 - the parallel toposort orderer links
each transaction, per key of its footprint, only to its nearest conflicting
predecessors: the last writer of the key, and, when the transaction writes the
key, the readers of the key since that last write (earlier conflicts are
reached transitively through these edges). -/
def minEdgeB (txns : List Txn) (i j : Nat) : Bool :=
  decide (i < j) &&
  (((txnAt txns j).reads ++ (txnAt txns j).writes).any
      (fun k => decide (lastWriterBefore txns k j = some i)) ||
   (txnAt txns j).writes.any
      (fun k => readsKey (txnAt txns i) k && noWriterBetween txns k i j))

/-- Modelled from the spec: section 4.7, the parallel dynamic toposort
orderer - each node's level is its longest-path depth in the graph of
nearest-conflicting-predecessor edges. -/
def parLevel (txns : List Txn) : Nat → Nat :=
  levelFn (minEdgeB txns)

/-- Modelled from the spec: the four pluggable ordering strategies of
sections 4.4-4.7. -/
inductive Strategy
  | identity
  | aria
  | window (w : Nat)
  | parallel
deriving DecidableEq

/-- The dependency-level function selected by each strategy
(identity assigns everything level 0: one batch, original order). -/
def levelOf : Strategy → List Txn → Nat → Nat
  | .identity, _, _ => 0
  | .aria, txns, j => seqLevel txns j
  | .window w, txns, j => winLevel w txns j
  | .parallel, txns, j => parLevel txns j

/-- The largest level assigned to the first `n` transactions. -/
def maxLevel (lvl : Nat → Nat) (n : Nat) : Nat :=
  ((List.range n).map lvl).foldr Nat.max 0

/-- Number of batches produced by grouping `n` transactions by level. -/
def numLevels (lvl : Nat → Nat) (n : Nat) : Nat :=
  if n = 0 then 0 else maxLevel lvl n + 1

/-- Modelled from the spec: sections 4.5-4.7 group transactions into the
batch of their level, batches in increasing level order, original order
within a batch.  Batches hold transaction positions. -/
def levelBatches (lvl : Nat → Nat) (n : Nat) : List (List Nat) :=
  (List.range (numLevels lvl n)).map
    (fun b => (List.range n).filter (fun j => lvl j == b))

/-- Modelled from the spec: section 4.8, the batching wrapper - consecutive
level batches are coalesced until the minimum transaction-count threshold `k`
is reached, and a final partial batch is flushed at the end. -/
def coalesce (k : Nat) : List (List Nat) → List Nat → List (List Nat)
  | [], cur => if cur.isEmpty then [] else [cur]
  | b :: bs, cur =>
    let cur2 := cur ++ b
    if k ≤ cur2.length then cur2 :: coalesce k bs [] else coalesce k bs cur2

/-- The sequence of batches (of transaction positions) emitted by a strategy
wrapped in the batching wrapper with minimum batch size `k`.  The identity
strategy emits one batch holding the whole input (spec section 4.4). -/
def emittedIdxBatches (s : Strategy) (k : Nat) (txns : List Txn) : List (List Nat) :=
  match s with
  | .identity => [List.range txns.length]
  | _ => coalesce k (levelBatches (levelOf s txns) txns.length) []

/-- The emitted batches as lists of transactions. -/
def txnBatches (s : Strategy) (k : Nat) (txns : List Txn) : List (List Txn) :=
  (emittedIdxBatches s k txns).map (List.map (txnAt txns))

/-- Modelled from the spec: section 4.3 - the block orderer feeds batches to
the fallible `on_batch` sink in emission order and stops at the first error.
Returns the final callback state, the batches actually handed to the
callback, and the overall result. -/
def orderRun {σ ε : Type} (onBatch : σ → List Txn → σ × Except ε Unit) :
    List (List Txn) → σ → σ × List (List Txn) × Except ε Unit
  | [], s => (s, [], Except.ok ())
  | b :: bs, s =>
    match onBatch s b with
    | (s1, Except.ok _) =>
      let r := orderRun onBatch bs s1
      (r.1, b :: r.2.1, r.2.2)
    | (s1, Except.error e) => (s1, [b], Except.error e)

/-- Modelled from the spec: the `order_transactions` contract of section 4.3,
for the strategy `s` under the batching wrapper with minimum batch size `k`. -/
def orderTransactions {σ ε : Type} (s : Strategy) (k : Nat) (txns : List Txn)
    (onBatch : σ → List Txn → σ × Except ε Unit) (s0 : σ) :
    σ × List (List Txn) × Except ε Unit :=
  orderRun onBatch (txnBatches s k txns) s0

/-- Whether the conflict pair `(i, j)` is visible to strategy `s`; only the
windowed strategy restricts visibility, to `j ≤ i + w` (spec section 4.6). -/
def inWindow : Strategy → Nat → Nat → Prop
  | .window w, i, j => j ≤ i + w
  | _, _, _ => True

/-- Modelled from the spec: section 4.9 - the greatest position `i < j` whose
transaction conflicts with the transaction at position `j` of the final
ordering (the most recent true predecessor conflict). -/
def lastConflictBefore (ordered : List Txn) (j : Nat) : Nat → Option Nat
  | 0 => none
  | i + 1 =>
    if conflictB (txnAt ordered i) (txnAt ordered j) then some i
    else lastConflictBefore ordered j i

/-- Modelled from the spec: section 4.9 - the dependency distance of the
transaction at position `j`: positions between it and its most recent true
predecessor conflict, `none` when it has no predecessor conflict. -/
def depDistance (ordered : List Txn) (j : Nat) : Option Nat :=
  (lastConflictBefore ordered j j).map (fun i => j - i)

/-- Modelled from the spec: section 4.9 - the configurable decay function
`1 / (c + distance)` (rationals stand in for the f64 arithmetic of the
benchmark, which stays on small exactly-representable values). -/
def amortizedInverseDependencyCostFunction (c : ℚ) : Nat → ℚ :=
  fun d => 1 / (c + (d : ℚ))

/-- Modelled from the spec: section 4.9 - the quality score of a finalized
ordering: the decay function of each transaction's dependency distance,
summed over all transactions (no contribution without a predecessor
conflict). -/
def orderTotalCost (ordered : List Txn) (f : Nat → ℚ) : ℚ :=
  ((List.range ordered.length).map
    (fun j =>
      match depDistance ordered j with
      | some d => f d
      | none => 0)).sum

/-- The CLI strategy selector of `main.rs` (`enum Orderer`). -/
inductive Orderer
  | Aria
  | Window
  | Parallel
  | Identity
deriving DecidableEq

/-- The CLI arguments of `main.rs` (`struct Args`). -/
structure Args where
  num_accounts : Nat
  block_size : Nat
  num_blocks : Nat
  orderer : Orderer
deriving DecidableEq

/-- The default values of `Args` in `main.rs`. -/
def defaultArgs (o : Orderer) : Args :=
  { num_accounts := 2000000, block_size := 100000, num_blocks := 10, orderer := o }

/-- The underlying ordering algorithms named by `main.rs`. -/
inductive InnerOrderer
  | sequentialDynamicAria
  | sequentialDynamicWindow
  | parallelDynamicToposort
deriving DecidableEq

/-- The block orderer value constructed by `main.rs` for a strategy: either
the identity block orderer or a batching wrapper around an inner algorithm. -/
inductive ConstructedOrderer
  | identityBlock
  | batchedWithoutWindow (inner : InnerOrderer) (minBatchSize : Nat)
  | batchedWithWindow (inner : InnerOrderer) (minBatchSize windowSize : Nat)
deriving DecidableEq

/-- `min(100, block_size)`, the threshold of `run_benchmark` before the
time-to-first-usable-batch latency is recorded. -/
def minOrderedBeforeExecution (blockSize : Nat) : Nat := min 100 blockSize

/-- The `match args.orderer` dispatch of `main`: which orderer each selector
value constructs, with the minimum batch size and window used there. -/
def selectOrderer (o : Orderer) (blockSize : Nat) : ConstructedOrderer :=
  match o with
  | .Aria =>
    .batchedWithoutWindow .sequentialDynamicAria (minOrderedBeforeExecution blockSize * 5)
  | .Window =>
    .batchedWithWindow .sequentialDynamicWindow (minOrderedBeforeExecution blockSize * 5) 1000
  | .Parallel =>
    .batchedWithoutWindow .parallelDynamicToposort (minOrderedBeforeExecution blockSize * 5)
  | .Identity => .identityBlock

/-- One step of the `run_benchmark` callback of `main.rs`: add the batch
length to `count_ordered` and, when no latency is recorded yet and the count
reaches the threshold `m`, record the current clock value (`times` abstracts
`now.elapsed()` at each callback invocation). -/
def benchStep (m : Nat) (times : Nat → Nat) (st : Nat × Option Nat)
    (p : Nat × List Txn) : Nat × Option Nat :=
  let c := st.1 + p.2.length
  (c,
    match st.2 with
    | some l => some l
    | none => if m ≤ c then some (times p.1) else none)

/-- The latency recorded by `run_benchmark` after all batches are delivered. -/
def benchLatency (m : Nat) (times : Nat → Nat) (batches : List (List Txn)) : Option Nat :=
  ((batches.enum).foldl (benchStep m times) (0, none)).2

/-- The three quality scores printed by `run_benchmark`: the total cost of the
concatenated order under decay constants 0, 16 and 50. -/
def benchCosts (ordered : List Txn) : List ℚ :=
  [orderTotalCost ordered (amortizedInverseDependencyCostFunction 0),
   orderTotalCost ordered (amortizedInverseDependencyCostFunction 16),
   orderTotalCost ordered (amortizedInverseDependencyCostFunction 50)]

/-- Total number of transactions in the first `i` batches. -/
def cumLen (batches : List (List Txn)) (i : Nat) : Nat :=
  ((batches.take i).map List.length).sum

/-- The first batch index at which the cumulative transaction count reaches
`m`, if any. -/
def firstReach (m : Nat) (batches : List (List Txn)) : Option Nat :=
  (List.range batches.length).find? (fun i => decide (m ≤ cumLen batches (i + 1)))

/-- The network kinds of `NetworkId` (`aptos-config`), in the declaration
order that the derived ordering uses: `Validator < Vfn < Public`, so that the
reversed comparison of `priority.rs` yields `Validator > Vfn > Public`. -/
inductive NetworkId
  | Validator
  | Vfn
  | Public
deriving DecidableEq, Inhabited

/-- Declaration index of a network kind, realizing the derived ordering. -/
def NetworkId.rank : NetworkId → Nat
  | .Validator => 0
  | .Vfn => 1
  | .Public => 2

/-- Three-way comparison on a linear order, as Rust `Ord::cmp`. -/
def linCmp {α : Type} [LinearOrder α] (a b : α) : Ordering :=
  if a < b then .lt else if a = b then .eq else .gt

/-- A peer handle: its network and its peer id (peer ids stand in for the
32-byte account addresses). -/
structure PeerNetworkId where
  network_id : NetworkId
  peer_id : Nat
deriving DecidableEq, Inhabited

/-- The part of `NetworkInformationResponse` read by `priority.rs`. -/
structure NetworkInformationResponse where
  distance_from_validators : Nat
deriving DecidableEq

/-- The part of `PeerMonitoringMetadata` read by `priority.rs` (rationals
stand in for the f64 ping latencies, compared via `total_cmp`). -/
structure PeerMonitoringMetadata where
  average_ping_latency_secs : Option ℚ
  latest_network_info_response : Option NetworkInformationResponse
deriving DecidableEq

/-- `get_distance_from_validators` of `priority.rs`. -/
def get_distance_from_validators (m : Option PeerMonitoringMetadata) : Option Nat :=
  m.bind (fun md =>
    md.latest_network_info_response.map (fun r => r.distance_from_validators))

/-- `get_peer_ping_latency` of `priority.rs`. -/
def get_peer_ping_latency (m : Option PeerMonitoringMetadata) : Option ℚ :=
  m.bind (fun md => md.average_ping_latency_secs)

/-- `compare_network_id` of `priority.rs`: the derived ordering reversed, so
the highest network is prioritized. -/
def compare_network_id (a b : NetworkId) : Ordering :=
  (linCmp a.rank b.rank).swap

/-- `compare_validator_distance` of `priority.rs`: lowest distance
prioritized, a present distance above an absent one. -/
def compare_validator_distance (ma mb : Option PeerMonitoringMetadata) : Ordering :=
  match get_distance_from_validators ma, get_distance_from_validators mb with
  | some da, some db => (linCmp da db).swap
  | some _, none => .gt
  | none, some _ => .lt
  | none, none => .eq

/-- `compare_ping_latency` of `priority.rs`: lowest latency prioritized, a
present latency above an absent one. -/
def compare_ping_latency (ma mb : Option PeerMonitoringMetadata) : Ordering :=
  match get_peer_ping_latency ma, get_peer_ping_latency mb with
  | some la, some lb => (linCmp la lb).swap
  | some _, none => .gt
  | none, some _ => .lt
  | none, none => .eq

/-- `PrioritizedPeersComparator::hash_peer_id`: the `RandomState` hasher is
abstracted as an arbitrary function `hash` fixed per comparator instance. -/
def hash_peer_id (hash : Nat → Nat) (p : PeerNetworkId) : Nat := hash p.peer_id

/-- `PrioritizedPeersComparator::compare` of `priority.rs`: network id first,
then validator distance, then ping latency, then the hashed peer ids, each
stage consulted only when all earlier stages tie. -/
def prioritizedPeersCompare (hash : Nat → Nat)
    (pa pb : PeerNetworkId × Option PeerMonitoringMetadata) : Ordering :=
  match compare_network_id pa.1.network_id pb.1.network_id with
  | .eq =>
    match compare_validator_distance pa.2 pb.2 with
    | .eq =>
      match compare_ping_latency pa.2 pb.2 with
      | .eq => linCmp (hash_peer_id hash pa.1) (hash_peer_id hash pb.1)
      | latency_ordering => latency_ordering
    | distance_ordering => distance_ordering
  | network_ordering => network_ordering

/-- `PrioritizedPeersState::sort_peers_by_priority`: a stable sort by the
reversed comparator (descending priority), then the peer of each pair. -/
def sort_peers_by_priority (hash : Nat → Nat)
    (peers_and_metadata : List (PeerNetworkId × Option PeerMonitoringMetadata)) :
    List PeerNetworkId :=
  (peers_and_metadata.mergeSort
      (fun a b => ((prioritizedPeersCompare hash a b).swap).isLE)).map (fun p => p.1)

/-- `usize::MAX` on the 64-bit targets the node runs on. -/
def USIZE_MAX : Nat := 2 ^ 64 - 1

/-- Itertools `find_position`: the first element satisfying the predicate
together with its zero-based position. -/
def find_position {α : Type} (p : α → Bool) : List α → Option (Nat × α)
  | [] => none
  | x :: xs =>
    if p x then some (0, x) else (find_position p xs).map (fun r => (r.1 + 1, r.2))

/-- `PrioritizedPeersState::get_peer_priority` of `priority.rs`. -/
def get_peer_priority (prioritized_peers : List PeerNetworkId)
    (peer_network_id : PeerNetworkId) : Nat :=
  match find_position (fun peer => peer == peer_network_id) prioritized_peers with
  | some r => r.1
  | none => USIZE_MAX

/-- The fields of `OpenRpcRequestState` that `cleanup_internal` consults
(`tokio::time::Instant` deadlines become abstract integer timestamps). -/
structure OpenRpcRequestState where
  id : Nat
  protocol_id : Nat
  deadline : Nat
deriving DecidableEq

/-- `OutboundRpcMatcher::cleanup_internal` of `interface.rs`: collect the
keys whose entry satisfies `v.deadline >= now`, then remove those keys from
the map (the `BTreeMap` is an association list with distinct keys). -/
def cleanup_internal (open_outbound_rpc : List (Nat × OpenRpcRequestState))
    (now : Nat) : List (Nat × OpenRpcRequestState) :=
  let to_delete :=
    (open_outbound_rpc.filter (fun kv => decide (now ≤ kv.2.deadline))).map
      (fun kv => kv.1)
  open_outbound_rpc.filter (fun kv => ! to_delete.contains kv.1)

/-- A comparator never disagrees with itself when its arguments swap. -/
def CmpAntisym {α : Type} (c : α → α → Ordering) : Prop :=
  ∀ a b, c b a = (c a b).swap

/-- Strict preference by a comparator is transitive. -/
def CmpTransGt {α : Type} (c : α → α → Ordering) : Prop :=
  ∀ a b d, c a b = .gt → c b d = .gt → c a d = .gt

/-- Arguments tied by a comparator compare identically against anything. -/
def CmpEqLeft {α : Type} (c : α → α → Ordering) : Prop :=
  ∀ a b d, c a b = .eq → c a d = c b d

/-- Lexicographic composition of two comparators: the second is consulted
only when the first ties (the early-return chain of `compare`). -/
def cmpThen {α : Type} (c d : α → α → Ordering) (a b : α) : Ordering :=
  (c a b).then (d a b)

/-- The network stage of `PrioritizedPeersComparator::compare`. -/
def compareNetworkStage (pa pb : PeerNetworkId × Option PeerMonitoringMetadata) :
    Ordering :=
  compare_network_id pa.1.network_id pb.1.network_id

/-- The validator-distance stage of `PrioritizedPeersComparator::compare`. -/
def compareDistanceStage (pa pb : PeerNetworkId × Option PeerMonitoringMetadata) :
    Ordering :=
  compare_validator_distance pa.2 pb.2

/-- The ping-latency stage of `PrioritizedPeersComparator::compare`. -/
def comparePingStage (pa pb : PeerNetworkId × Option PeerMonitoringMetadata) :
    Ordering :=
  compare_ping_latency pa.2 pb.2

/-- The hashed-peer-id tie-break stage of
`PrioritizedPeersComparator::compare`. -/
def compareHashStage (hash : Nat → Nat)
    (pa pb : PeerNetworkId × Option PeerMonitoringMetadata) : Ordering :=
  linCmp (hash_peer_id hash pa.1) (hash_peer_id hash pb.1)

/-! ## Part 2: theorems -/

theorem foldrMax_ge {f : Nat → Nat} {l : List Nat} {i : Nat} (h : i ∈ l) :
    f i + 1 ≤ foldrMax f l := by
  induction l with
  | nil => cases h
  | cons a t ih =>
    rcases List.mem_cons.mp h with rfl | h2
    · exact Nat.le_max_left _ _
    · exact le_trans (ih h2) (Nat.le_max_right _ _)

theorem foldrMax_le {f : Nat → Nat} {l : List Nat} {B : Nat}
    (h : ∀ i ∈ l, f i + 1 ≤ B) : foldrMax f l ≤ B := by
  induction l with
  | nil => exact Nat.zero_le B
  | cons a t ih =>
    exact Nat.max_le.mpr ⟨h a (List.mem_cons_self a t),
      ih (fun i hi => h i (List.mem_cons_of_mem a hi))⟩

theorem foldrMax_congr {f g : Nat → Nat} {l : List Nat}
    (h : ∀ i ∈ l, f i = g i) : foldrMax f l = foldrMax g l := by
  induction l with
  | nil => rfl
  | cons a t ih =>
    simp only [foldrMax, List.foldr_cons] at *
    rw [h a (List.mem_cons_self a t), ih (fun i hi => h i (List.mem_cons_of_mem a hi))]

theorem levelsAux_length (e : Nat → Nat → Bool) : ∀ n, (levelsAux e n).length = n := by
  intro n
  induction n with
  | zero => rfl
  | succ n ih => simp [levelsAux, ih]

theorem levelsAux_getD_stable (e : Nat → Nat → Bool) {i n m : Nat}
    (hin : i < n) (hnm : n ≤ m) :
    (levelsAux e m).getD i 0 = (levelsAux e n).getD i 0 := by
  induction m with
  | zero => omega
  | succ m ih =>
    rcases Nat.lt_or_ge m n with hmn | hmn
    · have : n = m + 1 := by omega
      subst this
      rfl
    · rw [show levelsAux e (m + 1) =
          levelsAux e m ++ [foldrMax (fun i => (levelsAux e m).getD i 0)
            ((List.range m).filter (fun i => e i m))] from rfl]
      rw [List.getD_append _ _ _ _ (by rw [levelsAux_length]; omega)]
      exact ih hmn

theorem levelFn_eq (e : Nat → Nat → Bool) (j : Nat) :
    levelFn e j = foldrMax (levelFn e) ((List.range j).filter (fun i => e i j)) := by
  have hlen : (levelsAux e j).length = j := levelsAux_length e j
  have hstep : levelsAux e (j + 1) =
      levelsAux e j ++ [foldrMax (fun i => (levelsAux e j).getD i 0)
        ((List.range j).filter (fun i => e i j))] := rfl
  rw [levelFn, hstep, List.getD_append_right _ _ _ _ (by omega), hlen]
  simp only [Nat.sub_self, List.getD_cons_zero]
  apply foldrMax_congr
  intro i hi
  have hij : i < j := List.mem_range.mp (List.mem_filter.mp hi).1
  rw [levelFn, levelsAux_getD_stable e (Nat.lt_succ_self i) hij]

theorem levelFn_lt_of_edge {e : Nat → Nat → Bool} {i j : Nat}
    (hij : i < j) (he : e i j = true) : levelFn e i < levelFn e j := by
  have hmem : i ∈ (List.range j).filter (fun i => e i j) :=
    List.mem_filter.mpr ⟨List.mem_range.mpr hij, he⟩
  have := foldrMax_ge (f := levelFn e) hmem
  rw [levelFn_eq e j]
  omega

theorem writesKey_iff {t : Txn} {k : Nat} : writesKey t k = true ↔ k ∈ t.writes :=
  List.elem_iff

theorem readsKey_iff {t : Txn} {k : Nat} : readsKey t k = true ↔ k ∈ t.reads :=
  List.elem_iff

theorem conflict_cases {txns : List Txn} {i j : Nat}
    (h : conflictsAt txns i j = true) :
    (∃ k, writesKey (txnAt txns i) k = true ∧ accessesKey (txnAt txns j) k = true) ∨
    (∃ k, writesKey (txnAt txns j) k = true ∧ readsKey (txnAt txns i) k = true) := by
  simp only [conflictsAt, conflictB, Bool.or_eq_true, List.any_eq_true] at h
  rcases h with ⟨k, hk, hacc⟩ | ⟨k, hk, hr⟩
  · left
    refine ⟨k, writesKey_iff.mpr hk, ?_⟩
    simp only [accessesKey, readsKey, writesKey, Bool.or_eq_true]
    exact hacc
  · right
    exact ⟨k, writesKey_iff.mpr hk, hr⟩

theorem conflict_of_write_access {txns : List Txn} {i j k : Nat}
    (hw : writesKey (txnAt txns i) k = true)
    (ha : accessesKey (txnAt txns j) k = true) : conflictsAt txns i j = true := by
  simp only [conflictsAt, conflictB, Bool.or_eq_true, List.any_eq_true]
  left
  refine ⟨k, writesKey_iff.mp hw, ?_⟩
  simpa only [accessesKey, readsKey, writesKey, Bool.or_eq_true] using ha

theorem conflict_of_read_write {txns : List Txn} {i j k : Nat}
    (hw : writesKey (txnAt txns j) k = true)
    (hr : readsKey (txnAt txns i) k = true) : conflictsAt txns i j = true := by
  simp only [conflictsAt, conflictB, Bool.or_eq_true, List.any_eq_true]
  right
  exact ⟨k, writesKey_iff.mp hw, hr⟩

theorem accessesKey_of_writes {t : Txn} {k : Nat} (h : writesKey t k = true) :
    accessesKey t k = true := by
  simp only [accessesKey, Bool.or_eq_true]
  exact Or.inr h

theorem lastWriterBefore_is_writer {txns : List Txn} {k : Nat} :
    ∀ {j m : Nat}, lastWriterBefore txns k j = some m →
      m < j ∧ writesKey (txnAt txns m) k = true := by
  intro j
  induction j with
  | zero => intro m h; cases h
  | succ j ih =>
    intro m h
    by_cases hw : writesKey (txnAt txns j) k = true
    · simp only [lastWriterBefore, hw, if_true, Option.some.injEq] at h
      subst h
      exact ⟨Nat.lt_succ_self j, hw⟩
    · simp only [lastWriterBefore, hw, if_false] at h
      obtain ⟨h1, h2⟩ := ih h
      exact ⟨Nat.lt_succ_of_lt h1, h2⟩

theorem lastWriterBefore_ge {txns : List Txn} {k : Nat} :
    ∀ {j i : Nat}, i < j → writesKey (txnAt txns i) k = true →
      ∃ m, lastWriterBefore txns k j = some m ∧ i ≤ m := by
  intro j
  induction j with
  | zero => intro i h; omega
  | succ j ih =>
    intro i hij hw
    by_cases hwj : writesKey (txnAt txns j) k = true
    · exact ⟨j, by simp only [lastWriterBefore, hwj, if_true], by omega⟩
    · have hij2 : i < j := by
        rcases Nat.lt_succ_iff_lt_or_eq.mp hij with h | h
        · exact h
        · subst h; exact absurd hw hwj
      obtain ⟨m, h1, h2⟩ := ih hij2 hw
      exact ⟨m, by simp only [lastWriterBefore, hwj, if_false]; exact h1, h2⟩

theorem noWriterBetween_false {txns : List Txn} {k i j : Nat}
    (h : ¬ noWriterBetween txns k i j = true) :
    ∃ m, i < m ∧ m < j ∧ writesKey (txnAt txns m) k = true := by
  simp only [noWriterBetween, List.isEmpty_iff] at h
  rcases List.exists_mem_of_ne_nil _ h with ⟨m, hm⟩
  have := List.mem_filter.mp hm
  rcases this with ⟨hr, hcond⟩
  simp only [Bool.and_eq_true] at hcond
  exact ⟨m, of_decide_eq_true hcond.1, List.mem_range.mp hr, hcond.2⟩

theorem minEdge_of_lastWriter {txns : List Txn} {i j k : Nat}
    (hacc : accessesKey (txnAt txns j) k = true)
    (hlw : lastWriterBefore txns k j = some i) (hij : i < j) :
    minEdgeB txns i j = true := by
  simp only [minEdgeB, Bool.and_eq_true, Bool.or_eq_true, List.any_eq_true]
  refine ⟨decide_eq_true hij, Or.inl ⟨k, ?_, decide_eq_true hlw⟩⟩
  simp only [accessesKey, Bool.or_eq_true] at hacc
  rcases hacc with h | h
  · exact List.mem_append.mpr (Or.inl (readsKey_iff.mp h))
  · exact List.mem_append.mpr (Or.inr (writesKey_iff.mp h))

theorem minEdge_of_reader {txns : List Txn} {i j k : Nat} (hij : i < j)
    (hjw : writesKey (txnAt txns j) k = true)
    (hir : readsKey (txnAt txns i) k = true)
    (hnb : noWriterBetween txns k i j = true) : minEdgeB txns i j = true := by
  simp only [minEdgeB, Bool.and_eq_true, Bool.or_eq_true, List.any_eq_true]
  exact ⟨decide_eq_true hij, Or.inr ⟨k, writesKey_iff.mp hjw, hir, hnb⟩⟩

theorem minEdge_lt {txns : List Txn} {i j : Nat} (h : minEdgeB txns i j = true) :
    i < j := by
  simp only [minEdgeB, Bool.and_eq_true] at h
  exact of_decide_eq_true h.1

theorem minEdge_conflict {txns : List Txn} {i j : Nat}
    (h : minEdgeB txns i j = true) : conflictsAt txns i j = true := by
  have hij := minEdge_lt h
  simp only [minEdgeB, Bool.and_eq_true, Bool.or_eq_true, List.any_eq_true] at h
  rcases h.2 with ⟨k, hk, hlw⟩ | ⟨k, hk, hcond⟩
  · have hlw2 := of_decide_eq_true hlw
    obtain ⟨_, hw⟩ := lastWriterBefore_is_writer hlw2
    apply conflict_of_write_access hw
    simp only [accessesKey, readsKey, writesKey, Bool.or_eq_true]
    rcases List.mem_append.mp hk with h1 | h1
    · exact Or.inl (List.elem_iff.mpr h1)
    · exact Or.inr (List.elem_iff.mpr h1)
  · exact conflict_of_read_write (writesKey_iff.mpr hk) hcond.1

theorem parLevel_lt_of_minEdge {txns : List Txn} {i j : Nat}
    (h : minEdgeB txns i j = true) : parLevel txns i < parLevel txns j := by
  simp only [parLevel]
  exact levelFn_lt_of_edge (minEdge_lt h) h

theorem seqLevel_lt_of_conflict {txns : List Txn} {i j : Nat} (hij : i < j)
    (hc : conflictsAt txns i j = true) : seqLevel txns i < seqLevel txns j := by
  simp only [seqLevel]
  exact levelFn_lt_of_edge hij hc

theorem winLevel_lt_of_conflict {w : Nat} {txns : List Txn} {i j : Nat}
    (hij : i < j) (hwin : j ≤ i + w) (hc : conflictsAt txns i j = true) :
    winLevel w txns i < winLevel w txns j := by
  simp only [winLevel]
  exact levelFn_lt_of_edge hij (by
    simp only [Bool.and_eq_true]
    exact ⟨decide_eq_true hwin, hc⟩)

theorem parLevel_lt_of_conflict {txns : List Txn} :
    ∀ j i, i < j → conflictsAt txns i j = true →
      parLevel txns i < parLevel txns j := by
  intro j
  induction j using Nat.strong_induction_on with
  | _ j IH =>
    have hA : ∀ i k, i < j → writesKey (txnAt txns i) k = true →
        accessesKey (txnAt txns j) k = true →
        parLevel txns i < parLevel txns j := by
      intro i k hij hw ha
      obtain ⟨m, hlw, him⟩ := lastWriterBefore_ge hij hw
      obtain ⟨hmj, hmw⟩ := lastWriterBefore_is_writer hlw
      have h1 : parLevel txns m < parLevel txns j :=
        parLevel_lt_of_minEdge (minEdge_of_lastWriter ha hlw hmj)
      rcases Nat.eq_or_lt_of_le him with rfl | hlt
      · exact h1
      · have hconf : conflictsAt txns i m = true :=
          conflict_of_write_access hw (accessesKey_of_writes hmw)
        exact lt_trans (IH m hmj i hlt hconf) h1
    intro i hij hconf
    rcases conflict_cases hconf with ⟨k, hw, ha⟩ | ⟨k, hjw, hir⟩
    · exact hA i k hij hw ha
    · by_cases hnb : noWriterBetween txns k i j = true
      · exact parLevel_lt_of_minEdge (minEdge_of_reader hij hjw hir hnb)
      · obtain ⟨m, him, hmj, hmw⟩ := noWriterBetween_false hnb
        have h1 : conflictsAt txns i m = true := conflict_of_read_write hmw hir
        exact lt_trans (IH m hmj i him h1)
          (hA m k hmj hmw (accessesKey_of_writes hjw))

theorem parLevel_eq_seqLevel (txns : List Txn) :
    ∀ j, parLevel txns j = seqLevel txns j := by
  intro j
  induction j using Nat.strong_induction_on with
  | _ j IH =>
    apply Nat.le_antisymm
    · have hpar : parLevel txns j =
          foldrMax (parLevel txns) ((List.range j).filter (fun i => minEdgeB txns i j)) := by
        simp only [parLevel]
        exact levelFn_eq _ j
      rw [hpar]
      apply foldrMax_le
      intro i hi
      have hmem := List.mem_filter.mp hi
      have hij : i < j := List.mem_range.mp hmem.1
      have hc : conflictsAt txns i j = true := minEdge_conflict hmem.2
      rw [IH i hij]
      exact seqLevel_lt_of_conflict hij hc
    · have hseq : seqLevel txns j =
          foldrMax (seqLevel txns) ((List.range j).filter (fun i => conflictsAt txns i j)) := by
        simp only [seqLevel]
        exact levelFn_eq _ j
      rw [hseq]
      apply foldrMax_le
      intro i hi
      have hmem := List.mem_filter.mp hi
      have hij : i < j := List.mem_range.mp hmem.1
      rw [← IH i hij]
      exact parLevel_lt_of_conflict j i hij hmem.2

theorem foldrNatMax_ge {l : List Nat} {x : Nat} (h : x ∈ l) :
    x ≤ l.foldr Nat.max 0 := by
  induction l with
  | nil => cases h
  | cons a t ih =>
    rcases List.mem_cons.mp h with rfl | h2
    · exact Nat.le_max_left _ _
    · exact le_trans (ih h2) (Nat.le_max_right _ _)

theorem level_lt_numLevels {lvl : Nat → Nat} {n j : Nat} (h : j < n) :
    lvl j < numLevels lvl n := by
  have hmem : lvl j ∈ (List.range n).map lvl :=
    List.mem_map.mpr ⟨j, List.mem_range.mpr h, rfl⟩
  have hle : lvl j ≤ maxLevel lvl n := foldrNatMax_ge hmem
  have hn : n ≠ 0 := by omega
  simp only [numLevels, hn, if_false]
  omega

theorem flatten_partition_perm (lvl : Nat → Nat) (l : List Nat) :
    ∀ m, (((List.range m).map (fun b => l.filter (fun j => lvl j == b))).flatten).Perm
      (l.filter (fun j => decide (lvl j < m))) := by
  intro m
  induction m with
  | zero =>
    simp only [List.range_zero, List.map_nil, List.flatten_nil]
    have : l.filter (fun j => decide (lvl j < 0)) = [] := by
      rw [List.filter_eq_nil_iff]
      intro a _
      simp
    rw [this]
  | succ m ih =>
    rw [List.range_succ, List.map_append, List.flatten_append]
    simp only [List.map_cons, List.map_nil, List.flatten_cons, List.flatten_nil,
      List.append_nil]
    have hsplit :
        (l.filter (fun j => decide (lvl j < m + 1))).filter (fun j => decide (lvl j < m)) =
          l.filter (fun j => decide (lvl j < m)) := by
      rw [List.filter_filter]
      apply List.filter_congr
      intro x _
      by_cases h : lvl x < m
      · simp [h, Nat.lt_succ_of_lt h]
      · simp [h]
    have hsplit2 :
        (l.filter (fun j => decide (lvl j < m + 1))).filter
            (fun j => ! decide (lvl j < m)) =
          l.filter (fun j => lvl j == m) := by
      rw [List.filter_filter]
      apply List.filter_congr
      intro x _
      rcases Nat.lt_trichotomy (lvl x) m with h | h | h
      · simp [h, Nat.ne_of_lt h]
      · simp [h]
      · have h1 : ¬ lvl x < m := by omega
        have h2 : ¬ lvl x < m + 1 := by omega
        have h3 : ¬ lvl x = m := by omega
        simp [h1, h2, h3]
    have hperm := List.filter_append_perm (fun j => decide (lvl j < m))
      (l.filter (fun j => decide (lvl j < m + 1)))
    rw [hsplit, hsplit2] at hperm
    exact (ih.append (List.Perm.refl _)).trans hperm

theorem flatten_levelBatches_perm (lvl : Nat → Nat) (n : Nat) :
    ((levelBatches lvl n).flatten).Perm (List.range n) := by
  have h := flatten_partition_perm lvl (List.range n) (numLevels lvl n)
  have heq : (List.range n).filter (fun j => decide (lvl j < numLevels lvl n)) =
      List.range n := by
    rw [List.filter_eq_self]
    intro j hj
    exact decide_eq_true (level_lt_numLevels (List.mem_range.mp hj))
  rw [heq] at h
  exact h

theorem coalesce_flatten (k : Nat) :
    ∀ (bs : List (List Nat)) (cur : List Nat),
      (coalesce k bs cur).flatten = cur ++ bs.flatten := by
  intro bs
  induction bs with
  | nil =>
    intro cur
    by_cases h : cur.isEmpty
    · simp only [coalesce, h, if_true, List.flatten_nil]
      rw [List.isEmpty_iff.mp h]
      rfl
    · simp only [coalesce, h, if_false]
      simp
  | cons b bs ih =>
    intro cur
    simp only [coalesce]
    by_cases h : k ≤ (cur ++ b).length
    · simp only [h, if_true, List.flatten_cons, ih, List.flatten_cons]
      simp
    · simp only [h, if_false, ih, List.flatten_cons]
      simp

theorem coalesce_getD_zero (k : Nat) :
    ∀ (bs : List (List Nat)) (cur : List Nat) (x : Nat), x ∈ cur →
      x ∈ (coalesce k bs cur).getD 0 [] := by
  intro bs
  induction bs with
  | nil =>
    intro cur x hx
    have h : cur.isEmpty = false :=
      List.isEmpty_eq_false.mpr (List.ne_nil_of_mem hx)
    simp only [coalesce, h, Bool.false_eq_true, if_false, List.getD_cons_zero]
    exact hx
  | cons b bs ih =>
    intro cur x hx
    simp only [coalesce]
    by_cases h : k ≤ (cur ++ b).length
    · simp only [h, if_true, List.getD_cons_zero]
      exact List.mem_append.mpr (Or.inl hx)
    · simp only [h, if_false]
      exact ih (cur ++ b) x (List.mem_append.mpr (Or.inl hx))

theorem mem_getD_flatten {L : List (List Nat)} {q : Nat} {y : Nat}
    (h : y ∈ L.getD q []) : y ∈ L.flatten := by
  rcases Nat.lt_or_ge q L.length with hq | hq
  · rw [List.getD_eq_getElem?_getD, List.getElem?_eq_getElem hq] at h
    exact List.mem_flatten.mpr ⟨L[q], List.getElem_mem hq, h⟩
  · rw [List.getD_eq_getElem?_getD, List.getElem?_eq_none hq] at h
    cases h

theorem mem_flatten_getD {L : List (List Nat)} {y : Nat} (h : y ∈ L.flatten) :
    ∃ q, y ∈ L.getD q [] := by
  rcases List.mem_flatten.mp h with ⟨l, hl, hyl⟩
  rcases List.getElem_of_mem hl with ⟨q, hq, rfl⟩
  refine ⟨q, ?_⟩
  rw [List.getD_eq_getElem?_getD, List.getElem?_eq_getElem hq]
  exact hyl

theorem coalesce_mono (k : Nat) :
    ∀ (bs : List (List Nat)) (cur : List Nat) (p q x y : Nat), p ≤ q →
      x ∈ bs.getD p [] → y ∈ bs.getD q [] →
      ∃ pp qq, pp ≤ qq ∧ x ∈ (coalesce k bs cur).getD pp [] ∧
        y ∈ (coalesce k bs cur).getD qq [] := by
  intro bs
  induction bs with
  | nil =>
    intro cur p q x y _ hx _
    simp only [List.getD_nil] at hx
    cases hx
  | cons b bs ih =>
    intro cur p q x y hpq hx hy
    have hyflat : ∀ (cur2 : List Nat), y ∈ (coalesce k bs cur2).flatten → 
        ∃ qq, y ∈ (coalesce k bs cur2).getD qq [] := fun _ h => mem_flatten_getD h
    cases p with
    | zero =>
      simp only [List.getD_cons_zero] at hx
      simp only [coalesce]
      by_cases h : k ≤ (cur ++ b).length
      · simp only [h, if_true]
        cases q with
        | zero =>
          simp only [List.getD_cons_zero] at hy
          exact ⟨0, 0, le_refl 0, List.mem_append.mpr (Or.inr hx),
            List.mem_append.mpr (Or.inr hy)⟩
        | succ q1 =>
          simp only [List.getD_cons_succ] at hy
          have hyf : y ∈ (coalesce k bs []).flatten := by
            rw [coalesce_flatten]
            exact mem_getD_flatten hy
          rcases mem_flatten_getD hyf with ⟨qq, hq⟩
          exact ⟨0, qq + 1, Nat.zero_le _, List.mem_append.mpr (Or.inr hx), hq⟩
      · simp only [h, if_false]
        have hx2 : x ∈ cur ++ b := List.mem_append.mpr (Or.inr hx)
        cases q with
        | zero =>
          simp only [List.getD_cons_zero] at hy
          exact ⟨0, 0, le_refl 0, coalesce_getD_zero k bs (cur ++ b) x hx2,
            coalesce_getD_zero k bs (cur ++ b) y (List.mem_append.mpr (Or.inr hy))⟩
        | succ q1 =>
          simp only [List.getD_cons_succ] at hy
          have hyf : y ∈ (coalesce k bs (cur ++ b)).flatten := by
            rw [coalesce_flatten]
            exact List.mem_append.mpr (Or.inr (mem_getD_flatten hy))
          rcases mem_flatten_getD hyf with ⟨qq, hq⟩
          exact ⟨0, qq, Nat.zero_le _, coalesce_getD_zero k bs (cur ++ b) x hx2, hq⟩
    | succ p1 =>
      cases q with
      | zero => omega
      | succ q1 =>
        simp only [List.getD_cons_succ] at hx hy
        simp only [coalesce]
        by_cases h : k ≤ (cur ++ b).length
        · simp only [h, if_true]
          rcases ih [] p1 q1 x y (by omega) hx hy with ⟨pp, qq, hle, hxp, hyq⟩
          exact ⟨pp + 1, qq + 1, by omega, by simpa using hxp, by simpa using hyq⟩
        · simp only [h, if_false]
          exact ih (cur ++ b) p1 q1 x y (by omega) hx hy

theorem levelBatches_getD {lvl : Nat → Nat} {n b : Nat} (h : b < numLevels lvl n) :
    (levelBatches lvl n).getD b [] = (List.range n).filter (fun j => lvl j == b) := by
  rw [levelBatches, List.getD_eq_getElem?_getD, List.getElem?_map,
    List.getElem?_range h]
  rfl

theorem mem_own_levelBatch {lvl : Nat → Nat} {n j : Nat} (h : j < n) :
    j ∈ (levelBatches lvl n).getD (lvl j) [] := by
  rw [levelBatches_getD (level_lt_numLevels h)]
  refine List.mem_filter.mpr ⟨List.mem_range.mpr h, ?_⟩
  simp

theorem orderRun_ok_all {σ ε : Type} (f : σ → List Txn → σ × Except ε Unit) :
    ∀ (bs : List (List Txn)) (s : σ), (orderRun f bs s).2.2 = Except.ok () →
      (orderRun f bs s).2.1 = bs := by
  intro bs
  induction bs with
  | nil => intro s _; rfl
  | cons b bs ih =>
    intro s h
    rcases hfb : f s b with ⟨s1, res⟩
    cases res with
    | ok u =>
      simp only [orderRun, hfb] at h ⊢
      rw [ih s1 h]
    | error e =>
      simp only [orderRun, hfb] at h
      cases h

theorem orderRun_stops {σ ε : Type} (f : σ → List Txn → σ × Except ε Unit)
    (b : List Txn) (post : List (List Txn)) (e : ε) :
    ∀ (pre : List (List Txn)) (s0 s1 s2 : σ),
      orderRun f pre s0 = (s1, pre, Except.ok ()) →
      f s1 b = (s2, Except.error e) →
      orderRun f (pre ++ b :: post) s0 = (s2, pre ++ [b], Except.error e) := by
  intro pre
  induction pre with
  | nil =>
    intro s0 s1 s2 h0 hf
    have hs : s0 = s1 := by
      have := congrArg Prod.fst h0
      simpa [orderRun] using this
    subst hs
    simp only [List.nil_append, orderRun, hf]
  | cons c cs ih =>
    intro s0 s1 s2 h0 hf
    rcases hfc : f s0 c with ⟨t, res⟩
    cases res with
    | error e2 =>
      rw [show orderRun f (c :: cs) s0 = (t, [c], Except.error e2) by
        simp only [orderRun, hfc]] at h0
      have := congrArg (fun p => p.2.2) h0
      simp at this
    | ok u =>
      cases u
      rcases hrun : orderRun f cs t with ⟨a, d, r⟩
      have h0' : (a, c :: d, r) = (s1, c :: cs, Except.ok ()) := by
        rw [← h0]
        simp only [orderRun, hfc, hrun]
      have ha : a = s1 := by
        have := congrArg Prod.fst h0'
        simpa using this
      have hd : d = cs := by
        have := congrArg (fun p => p.2.1) h0'
        simpa using this
      have hr : r = Except.ok () := by
        have := congrArg (fun p => p.2.2) h0'
        simpa using this
      subst ha hd hr
      have hrec := ih t a s2 hrun hf
      simp only [List.cons_append, orderRun, hfc, List.append_eq, hrec]

theorem map_txnAt_range (txns : List Txn) :
    (List.range txns.length).map (txnAt txns) = txns := by
  induction txns with
  | nil => rfl
  | cons a l ih =>
    rw [List.length_cons, List.range_succ_eq_map, List.map_cons, List.map_map]
    have h1 : txnAt (a :: l) 0 = a := rfl
    have h2 : (txnAt (a :: l)) ∘ Nat.succ = txnAt l := by
      funext i
      simp [txnAt, Function.comp]
    rw [h1, h2, ih]

theorem idxFlatten_perm (s : Strategy) (k : Nat) (txns : List Txn) :
    ((emittedIdxBatches s k txns).flatten).Perm (List.range txns.length) := by
  cases s with
  | identity =>
    simp [emittedIdxBatches]
  | aria =>
    rw [show emittedIdxBatches .aria k txns =
      coalesce k (levelBatches (levelOf .aria txns) txns.length) [] from rfl]
    rw [coalesce_flatten, List.nil_append]
    exact flatten_levelBatches_perm _ _
  | window w =>
    rw [show emittedIdxBatches (.window w) k txns =
      coalesce k (levelBatches (levelOf (.window w) txns) txns.length) [] from rfl]
    rw [coalesce_flatten, List.nil_append]
    exact flatten_levelBatches_perm _ _
  | parallel =>
    rw [show emittedIdxBatches .parallel k txns =
      coalesce k (levelBatches (levelOf .parallel txns) txns.length) [] from rfl]
    rw [coalesce_flatten, List.nil_append]
    exact flatten_levelBatches_perm _ _

theorem txnBatches_flatten_perm (s : Strategy) (k : Nat) (txns : List Txn) :
    ((txnBatches s k txns).flatten).Perm txns := by
  rw [txnBatches, ← List.map_flatten]
  have h := (idxFlatten_perm s k txns).map (txnAt txns)
  rw [map_txnAt_range] at h
  exact h

/-- C1: for every input transaction sequence and every ordering strategy
(identity, sequential dependency, windowed sequential, parallel toposort),
when `order_transactions` returns `Ok`, the multiset of transactions across
all batches handed to `on_batch` equals the input multiset exactly - no
transaction is created, dropped, or duplicated. -/
theorem claim_C1_permutation {σ ε : Type} (s : Strategy) (k : Nat)
    (txns : List Txn) (f : σ → List Txn → σ × Except ε Unit) (s0 : σ)
    (h : (orderTransactions s k txns f s0).2.2 = Except.ok ()) :
    ((orderTransactions s k txns f s0).2.1.flatten).Perm txns := by
  have hall : (orderTransactions s k txns f s0).2.1 = txnBatches s k txns :=
    orderRun_ok_all f _ s0 h
  rw [hall]
  exact txnBatches_flatten_perm s k txns

/-- Witness for C1 at the concrete three-transaction scenario of the spec
(section 8, scenario 6) under the sequential strategy and an accepting
consumer. -/
theorem claim_C1_permutation_witness :
    (orderTransactions .aria 1
        [⟨1, [], [1]⟩, ⟨2, [1], [2]⟩, ⟨3, [2], []⟩]
        (fun (s : Unit) (_ : List Txn) => (s, (Except.ok () : Except Unit Unit)))
        ()).2.2 = Except.ok () ∧
    ((orderTransactions .aria 1
        [⟨1, [], [1]⟩, ⟨2, [1], [2]⟩, ⟨3, [2], []⟩]
        (fun (s : Unit) (_ : List Txn) => (s, (Except.ok () : Except Unit Unit)))
        ()).2.1.flatten).Perm
      [⟨1, [], [1]⟩, ⟨2, [1], [2]⟩, ⟨3, [2], []⟩] :=
  ⟨rfl, claim_C1_permutation .aria 1 _ _ () rfl⟩

theorem coalesced_levels_order {lvl : Nat → Nat} {n k i j : Nat}
    (hi : i < n) (hj : j < n) (hle : lvl i ≤ lvl j) :
    ∃ p q, p ≤ q ∧ i ∈ (coalesce k (levelBatches lvl n) []).getD p [] ∧
      j ∈ (coalesce k (levelBatches lvl n) []).getD q [] :=
  coalesce_mono k (levelBatches lvl n) [] (lvl i) (lvl j) i j hle
    (mem_own_levelBatch hi) (mem_own_levelBatch hj)

/-- C2: for every input sequence and every pair of transactions `a` before
`b` in original order with conflicting footprints, the batch index of `a` is
at most the batch index of `b`, for every strategy except the windowed
variant when the conflict lies outside its window. -/
theorem claim_C2_dependency_order (s : Strategy) (k : Nat) (txns : List Txn)
    (i j : Nat) (hij : i < j) (hj : j < txns.length)
    (hc : conflictsAt txns i j = true) (hw : inWindow s i j) :
    ∃ p q, p ≤ q ∧ i ∈ (emittedIdxBatches s k txns).getD p [] ∧
      j ∈ (emittedIdxBatches s k txns).getD q [] := by
  have hi : i < txns.length := lt_trans hij hj
  cases s with
  | identity =>
    refine ⟨0, 0, le_refl 0, ?_, ?_⟩
    · simp only [emittedIdxBatches, List.getD_cons_zero]
      exact List.mem_range.mpr hi
    · simp only [emittedIdxBatches, List.getD_cons_zero]
      exact List.mem_range.mpr hj
  | aria =>
    exact coalesced_levels_order hi hj
      (le_of_lt (seqLevel_lt_of_conflict hij hc))
  | window w =>
    exact coalesced_levels_order hi hj
      (le_of_lt (winLevel_lt_of_conflict hij hw hc))
  | parallel =>
    exact coalesced_levels_order hi hj
      (le_of_lt (parLevel_lt_of_conflict j i hij hc))

/-- Witness for C2: a write-read conflict under the sequential strategy at a
concrete two-transaction block. -/
theorem claim_C2_dependency_order_witness :
    ((0 : Nat) < 1 ∧ (1 : Nat) < 2 ∧
      conflictsAt [⟨1, [], [7]⟩, ⟨2, [7], []⟩] 0 1 = true) ∧
    ∃ p q, p ≤ q ∧
      0 ∈ (emittedIdxBatches .aria 1 [⟨1, [], [7]⟩, ⟨2, [7], []⟩]).getD p [] ∧
      1 ∈ (emittedIdxBatches .aria 1 [⟨1, [], [7]⟩, ⟨2, [7], []⟩]).getD q [] :=
  ⟨⟨by decide, by decide, by decide⟩,
    claim_C2_dependency_order .aria 1 _ 0 1 (by decide) (by decide) (by decide)
      trivial⟩

/-- C3: if the `on_batch` callback returns an error on some batch,
`order_transactions` stops immediately, invokes `on_batch` on no further
batch (the delivered trace is exactly the successful prefix plus the failing
batch), and returns that same error. -/
theorem claim_C3_error_propagation {σ ε : Type} (s : Strategy) (k : Nat)
    (txns : List Txn) (f : σ → List Txn → σ × Except ε Unit) (s0 s1 s2 : σ)
    (pre : List (List Txn)) (b : List Txn) (post : List (List Txn)) (e : ε)
    (hsplit : txnBatches s k txns = pre ++ b :: post)
    (hpre : orderRun f pre s0 = (s1, pre, Except.ok ()))
    (hfail : f s1 b = (s2, Except.error e)) :
    orderTransactions s k txns f s0 = (s2, pre ++ [b], Except.error e) := by
  rw [orderTransactions, hsplit]
  exact orderRun_stops f b post e pre s0 s1 s2 hpre hfail

/-- Witness for C3: a consumer that rejects the first batch observes exactly
one callback invocation and the identity orderer returns its error. -/
theorem claim_C3_error_propagation_witness :
    (txnBatches .identity 0 [⟨1, [], [1]⟩] =
        [] ++ [⟨1, [], [1]⟩] :: [] ∧
      orderRun
        (fun (s : Unit) (_ : List Txn) => (s, (Except.error 42 : Except Nat Unit)))
        [] () = ((), [], Except.ok ()) ∧
      (fun (s : Unit) (_ : List Txn) => (s, (Except.error 42 : Except Nat Unit))) ()
        [⟨1, [], [1]⟩] = ((), Except.error 42)) ∧
    orderTransactions .identity 0 [⟨1, [], [1]⟩]
        (fun (s : Unit) (_ : List Txn) => (s, (Except.error 42 : Except Nat Unit)))
        () =
      ((), [] ++ [[⟨1, [], [1]⟩]], Except.error 42) :=
  ⟨⟨rfl, rfl, rfl⟩,
    claim_C3_error_propagation .identity 0 [⟨1, [], [1]⟩]
      (fun s _ => (s, Except.error 42)) () () () [] [⟨1, [], [1]⟩] [] 42
      rfl rfl rfl⟩

/-- C4: the identity orderer, on every input sequence, emits exactly one
batch, and that batch equals the input sequence in original order. -/
theorem claim_C4_identity (k : Nat) (txns : List Txn) :
    txnBatches Strategy.identity k txns = [txns] := by
  simp only [txnBatches, emittedIdxBatches, List.map_cons, List.map_nil]
  rw [map_txnAt_range]

/-- C5: the parallel dynamic toposort orderer respects exactly the same
dependency partial order as the sequential dependency-tracking orderer; in
this model its level assignment, hence its batch assignment, coincides with
the sequential one. -/
theorem claim_C5_parallel_refines_sequential (k : Nat) (txns : List Txn) :
    (∀ j, parLevel txns j = seqLevel txns j) ∧
    emittedIdxBatches Strategy.parallel k txns =
      emittedIdxBatches Strategy.aria k txns := by
  refine ⟨parLevel_eq_seqLevel txns, ?_⟩
  have hfun : parLevel txns = seqLevel txns := funext (parLevel_eq_seqLevel txns)
  show coalesce k (levelBatches (levelOf .parallel txns) txns.length) [] =
    coalesce k (levelBatches (levelOf .aria txns) txns.length) []
  have h1 : levelOf .parallel txns = parLevel txns := rfl
  have h2 : levelOf .aria txns = seqLevel txns := rfl
  rw [h1, h2, hfun]

/-- C6: the orderer strategy selector recognizes exactly four strategies,
and each selector value constructs the corresponding orderer: identity the
identity block orderer, the sequential-dependency value the sequential Aria
orderer, the windowed value the sequential window orderer, and the
parallel-toposort value the parallel toposort orderer. -/
theorem claim_C6_selector (blockSize : Nat) :
    (∀ o : Orderer, o = .Aria ∨ o = .Window ∨ o = .Parallel ∨ o = .Identity) ∧
    [Orderer.Aria, Orderer.Window, Orderer.Parallel, Orderer.Identity].Nodup ∧
    selectOrderer .Identity blockSize = .identityBlock ∧
    selectOrderer .Aria blockSize =
      .batchedWithoutWindow .sequentialDynamicAria (min 100 blockSize * 5) ∧
    selectOrderer .Window blockSize =
      .batchedWithWindow .sequentialDynamicWindow (min 100 blockSize * 5) 1000 ∧
    selectOrderer .Parallel blockSize =
      .batchedWithoutWindow .parallelDynamicToposort (min 100 blockSize * 5) := by
  refine ⟨?_, by decide, rfl, rfl, rfl, rfl⟩
  intro o
  cases o
  · exact Or.inl rfl
  · exact Or.inr (Or.inl rfl)
  · exact Or.inr (Or.inr (Or.inl rfl))
  · exact Or.inr (Or.inr (Or.inr rfl))

theorem benchFold_keeps (m : Nat) (times : Nat → Nat) :
    ∀ (ps : List (Nat × List Txn)) (c l : Nat),
      ((ps.foldl (benchStep m times) (c, some l))).2 = some l := by
  intro ps
  induction ps with
  | nil => intro c l; rfl
  | cons p ps ih => intro c l; exact ih _ l

theorem benchFold_char (m : Nat) (times : Nat → Nat) :
    ∀ (bs : List (List Txn)) (i c : Nat),
      ((List.enumFrom i bs).foldl (benchStep m times) (c, none)).2 =
        ((List.range bs.length).find?
            (fun j => decide (m ≤ c + cumLen bs (j + 1)))).map
          (fun j => times (i + j)) := by
  intro bs
  induction bs with
  | nil => intro i c; rfl
  | cons b bs ih =>
    intro i c
    rw [List.enumFrom_cons]
    by_cases h : m ≤ c + b.length
    · have hstep : benchStep m times (c, none) (i, b) = (c + b.length, some (times i)) := by
        simp only [benchStep, h, if_true]
      rw [List.foldl_cons, hstep, benchFold_keeps]
      have hp : decide (m ≤ c + cumLen (b :: bs) (0 + 1)) = true := by
        simp only [Nat.zero_add, cumLen, List.take_succ_cons, List.take_zero,
          List.map_cons, List.map_nil, List.sum_cons, List.sum_nil, Nat.add_zero]
        exact decide_eq_true h
      rw [List.length_cons, List.range_succ_eq_map, List.find?_cons, hp]
      simp
    · have hstep : benchStep m times (c, none) (i, b) = (c + b.length, none) := by
        simp only [benchStep, h, if_false]
      rw [List.foldl_cons, hstep, ih (i + 1) (c + b.length)]
      have hp : decide (m ≤ c + cumLen (b :: bs) (0 + 1)) = false := by
        simp only [Nat.zero_add, cumLen, List.take_succ_cons, List.take_zero,
          List.map_cons, List.map_nil, List.sum_cons, List.sum_nil, Nat.add_zero]
        exact decide_eq_false h
      rw [List.length_cons, List.range_succ_eq_map, List.find?_cons, hp]
      rw [List.find?_map]
      have hcomp : ((fun j => decide (m ≤ c + cumLen (b :: bs) (j + 1))) ∘ Nat.succ) =
          (fun j => decide (m ≤ c + b.length + cumLen bs (j + 1))) := by
        funext j
        simp only [Function.comp, cumLen, List.take_succ_cons, List.map_cons,
          List.sum_cons]
        rw [decide_eq_decide]
        omega
      rw [hcomp]
      rcases hfind : (List.range bs.length).find?
          (fun j => decide (m ≤ c + b.length + cumLen bs (j + 1))) with _ | j
      · simp
      · simp only [Option.map_some, Option.map_map]
        congr 1
        funext j2
        simp only [Function.comp]
        congr 1
        omega

/-- C7: the benchmarking entry point accepts an account count, block size,
block count and strategy (`Args`); per block, the time-to-first-usable-batch
latency is recorded at the first batch by which at least
`min 100 block_size` transactions have been delivered to the callback, and
the reported quality scores of the concatenated order use the decay
function `1 / (c + distance)` at the constants 0, 16 and 50. -/
theorem claim_C7_benchmark (a : Args) (times : Nat → Nat)
    (batches : List (List Txn)) (ordered : List Txn) :
    benchLatency (minOrderedBeforeExecution a.block_size) times batches =
      (firstReach (min 100 a.block_size) batches).map times ∧
    benchCosts ordered =
      [0, 16, 50].map
        (fun c => orderTotalCost ordered (fun d => 1 / (c + (d : ℚ)))) := by
  constructor
  · rw [benchLatency, show batches.enum = List.enumFrom 0 batches from rfl,
      benchFold_char]
    have h1 : (fun j => decide (minOrderedBeforeExecution a.block_size ≤
          0 + cumLen batches (j + 1))) =
        (fun i => decide (min 100 a.block_size ≤ cumLen batches (i + 1))) := by
      funext j
      rw [decide_eq_decide]
      rw [show minOrderedBeforeExecution a.block_size = min 100 a.block_size from rfl]
      omega
    have h2 : (fun j => times (0 + j)) = times := by
      funext j
      rw [Nat.zero_add]
    rw [h1, h2, firstReach]
  · rfl

theorem linCmp_eq_lt {α : Type} [LinearOrder α] {a b : α} :
    linCmp a b = .lt ↔ a < b := by
  unfold linCmp
  rcases lt_trichotomy a b with h | h | h
  · simp [h]
  · subst h
    simp [lt_irrefl]
  · have h1 : ¬ a < b := not_lt_of_gt h
    have h2 : a ≠ b := ne_of_gt h
    simp [h1, h2]

theorem linCmp_eq_eq {α : Type} [LinearOrder α] {a b : α} :
    linCmp a b = .eq ↔ a = b := by
  unfold linCmp
  rcases lt_trichotomy a b with h | h | h
  · have h2 : a ≠ b := ne_of_lt h
    simp [h, h2]
  · subst h
    simp [lt_irrefl]
  · have h1 : ¬ a < b := not_lt_of_gt h
    have h2 : a ≠ b := ne_of_gt h
    simp [h1, h2]

theorem linCmp_eq_gt {α : Type} [LinearOrder α] {a b : α} :
    linCmp a b = .gt ↔ b < a := by
  unfold linCmp
  rcases lt_trichotomy a b with h | h | h
  · have h1 : ¬ b < a := not_lt_of_gt h
    simp [h, h1]
  · subst h
    simp [lt_irrefl]
  · have h1 : ¬ a < b := not_lt_of_gt h
    have h2 : a ≠ b := ne_of_gt h
    simp [h1, h2, h]

theorem linCmp_antisym {α : Type} [LinearOrder α] :
    CmpAntisym (fun a b : α => linCmp a b) := by
  intro a b
  show linCmp b a = (linCmp a b).swap
  rcases lt_trichotomy a b with h | h | h
  · rw [linCmp_eq_lt.mpr h, linCmp_eq_gt.mpr h]
    rfl
  · subst h
    rw [linCmp_eq_eq.mpr rfl]
    rfl
  · rw [linCmp_eq_gt.mpr h, linCmp_eq_lt.mpr h]
    rfl

theorem linCmp_transGt {α : Type} [LinearOrder α] :
    CmpTransGt (fun a b : α => linCmp a b) := by
  intro a b d h1 h2
  show linCmp a d = .gt
  exact linCmp_eq_gt.mpr (lt_trans (linCmp_eq_gt.mp h2) (linCmp_eq_gt.mp h1))

theorem linCmp_eqLeft {α : Type} [LinearOrder α] :
    CmpEqLeft (fun a b : α => linCmp a b) := by
  intro a b d h
  show linCmp a d = linCmp b d
  rw [linCmp_eq_eq.mp (h : linCmp a b = .eq)]

theorem ordering_swap_then (x y : Ordering) : (x.then y).swap = x.swap.then y.swap := by
  cases x <;> rfl

theorem ordering_then_eq_iff {x y : Ordering} :
    x.then y = .eq ↔ x = .eq ∧ y = .eq := by
  cases x <;> simp [Ordering.then]

theorem ordering_then_gt_iff {x y : Ordering} :
    x.then y = .gt ↔ x = .gt ∨ (x = .eq ∧ y = .gt) := by
  cases x <;> simp [Ordering.then]

theorem cmpEqRight {α : Type} {c : α → α → Ordering}
    (hanti : CmpAntisym c) (heql : CmpEqLeft c) :
    ∀ a b d, c a b = .eq → c d a = c d b := by
  intro a b d h
  have hba : c b a = .eq := by
    rw [hanti a b, h]
    rfl
  rw [hanti a d, hanti b d]
  have h1 : c a d = c b d := heql a b d h
  rw [h1]

theorem cmpThen_antisym {α : Type} {c d : α → α → Ordering}
    (hc : CmpAntisym c) (hd : CmpAntisym d) : CmpAntisym (cmpThen c d) := by
  intro a b
  show (c b a).then (d b a) = ((c a b).then (d a b)).swap
  rw [hc a b, hd a b, ordering_swap_then]

theorem cmpThen_eqLeft {α : Type} {c d : α → α → Ordering}
    (hc : CmpEqLeft c) (hd : CmpEqLeft d) : CmpEqLeft (cmpThen c d) := by
  intro a b e h
  have h2 := ordering_then_eq_iff.mp h
  show (c a e).then (d a e) = (c b e).then (d b e)
  rw [hc a b e h2.1, hd a b e h2.2]

theorem cmpThen_transGt {α : Type} {c d : α → α → Ordering}
    (hcanti : CmpAntisym c) (hct : CmpTransGt c) (hcl : CmpEqLeft c)
    (hdt : CmpTransGt d) : CmpTransGt (cmpThen c d) := by
  intro a b e h1 h2
  have g1 := ordering_then_gt_iff.mp h1
  have g2 := ordering_then_gt_iff.mp h2
  show (c a e).then (d a e) = .gt
  rcases g1 with hcab | ⟨hcab, hdab⟩
  · rcases g2 with hcbe | ⟨hcbe, _⟩
    · rw [ordering_then_gt_iff]
      exact Or.inl (hct a b e hcab hcbe)
    · rw [ordering_then_gt_iff]
      left
      rw [← cmpEqRight hcanti hcl b e a hcbe]
      exact hcab
  · rcases g2 with hcbe | ⟨hcbe, hdbe⟩
    · rw [ordering_then_gt_iff]
      left
      rw [hcl a b e hcab]
      exact hcbe
    · rw [ordering_then_gt_iff]
      right
      refine ⟨by rw [hcl a b e hcab]; exact hcbe, hdt a b e hdab hdbe⟩

theorem ordering_swap_eq_gt {x : Ordering} : x.swap = .gt ↔ x = .lt := by
  cases x <;> simp [Ordering.swap]

theorem ordering_swap_eq_eq {x : Ordering} : x.swap = .eq ↔ x = .eq := by
  cases x <;> simp [Ordering.swap]

theorem cmpSwapRev_antisym {α : Type} {c : α → α → Ordering}
    (h : CmpAntisym c) : CmpAntisym (fun a b => (c a b).swap) := by
  intro a b
  show (c b a).swap = ((c a b).swap).swap
  rw [h a b]

theorem cmpSwapRev_transGt {α : Type} {c : α → α → Ordering}
    (hanti : CmpAntisym c) (ht : CmpTransGt c) :
    CmpTransGt (fun a b => (c a b).swap) := by
  intro a b e h1 h2
  show (c a e).swap = .gt
  have hab : c a b = .lt := ordering_swap_eq_gt.mp h1
  have hbe : c b e = .lt := ordering_swap_eq_gt.mp h2
  have hba : c b a = .gt := by
    rw [hanti a b, hab]
    rfl
  have heb : c e b = .gt := by
    rw [hanti b e, hbe]
    rfl
  have hea : c e a = .gt := ht e b a heb hba
  rw [ordering_swap_eq_gt]
  have := hanti e a
  rw [hea] at this
  cases hx : c a e <;> rw [hx] at this <;> simp [Ordering.swap] at this ⊢

theorem cmpSwapRev_eqLeft {α : Type} {c : α → α → Ordering}
    (he : CmpEqLeft c) : CmpEqLeft (fun a b => (c a b).swap) := by
  intro a b e h
  show (c a e).swap = (c b e).swap
  rw [he a b e (ordering_swap_eq_eq.mp h)]

theorem cmpPull_antisym {α β : Type} {c : β → β → Ordering} (f : α → β)
    (h : CmpAntisym c) : CmpAntisym (fun a b => c (f a) (f b)) :=
  fun a b => h (f a) (f b)

theorem cmpPull_transGt {α β : Type} {c : β → β → Ordering} (f : α → β)
    (h : CmpTransGt c) : CmpTransGt (fun a b => c (f a) (f b)) :=
  fun a b e h1 h2 => h (f a) (f b) (f e) h1 h2

theorem cmpPull_eqLeft {α β : Type} {c : β → β → Ordering} (f : α → β)
    (h : CmpEqLeft c) : CmpEqLeft (fun a b => c (f a) (f b)) :=
  fun a b e h1 => h (f a) (f b) (f e) h1

theorem optRev_antisym {M β : Type} [LinearOrder β] (g : M → Option β)
    (c : M → M → Ordering)
    (hss : ∀ ma mb a b, g ma = some a → g mb = some b → c ma mb = (linCmp a b).swap)
    (hsn : ∀ ma mb a, g ma = some a → g mb = none → c ma mb = .gt)
    (hns : ∀ ma mb b, g ma = none → g mb = some b → c ma mb = .lt)
    (hnn : ∀ ma mb, g ma = none → g mb = none → c ma mb = .eq) :
    CmpAntisym c := by
  intro ma mb
  rcases hga : g ma with _ | da <;> rcases hgb : g mb with _ | db
  · rw [hnn ma mb hga hgb, hnn mb ma hgb hga]
    rfl
  · rw [hns ma mb db hga hgb, hsn mb ma db hgb hga]
    rfl
  · rw [hsn ma mb da hga hgb, hns mb ma da hgb hga]
    rfl
  · rw [hss ma mb da db hga hgb, hss mb ma db da hgb hga,
      show linCmp db da = (linCmp da db).swap from linCmp_antisym da db]

theorem optRev_transGt {M β : Type} [LinearOrder β] (g : M → Option β)
    (c : M → M → Ordering)
    (hss : ∀ ma mb a b, g ma = some a → g mb = some b → c ma mb = (linCmp a b).swap)
    (hsn : ∀ ma mb a, g ma = some a → g mb = none → c ma mb = .gt)
    (hns : ∀ ma mb b, g ma = none → g mb = some b → c ma mb = .lt)
    (hnn : ∀ ma mb, g ma = none → g mb = none → c ma mb = .eq) :
    CmpTransGt c := by
  intro ma mb me h1 h2
  rcases hga : g ma with _ | da
  · rcases hgb : g mb with _ | db
    · rw [hnn ma mb hga hgb] at h1
      cases h1
    · rw [hns ma mb db hga hgb] at h1
      cases h1
  · rcases hgb : g mb with _ | db
    · rcases hge : g me with _ | de
      · rw [hnn mb me hgb hge] at h2
        cases h2
      · rw [hns mb me de hgb hge] at h2
        cases h2
    · rcases hge : g me with _ | de
      · exact hsn ma me da hga hge
      · rw [hss ma mb da db hga hgb] at h1
        rw [hss mb me db de hgb hge] at h2
        rw [hss ma me da de hga hge]
        have hab : da < db := linCmp_eq_lt.mp (ordering_swap_eq_gt.mp h1)
        have hbe : db < de := linCmp_eq_lt.mp (ordering_swap_eq_gt.mp h2)
        rw [ordering_swap_eq_gt, linCmp_eq_lt]
        exact lt_trans hab hbe

theorem optRev_eqLeft {M β : Type} [LinearOrder β] (g : M → Option β)
    (c : M → M → Ordering)
    (hss : ∀ ma mb a b, g ma = some a → g mb = some b → c ma mb = (linCmp a b).swap)
    (hsn : ∀ ma mb a, g ma = some a → g mb = none → c ma mb = .gt)
    (hns : ∀ ma mb b, g ma = none → g mb = some b → c ma mb = .lt)
    (hnn : ∀ ma mb, g ma = none → g mb = none → c ma mb = .eq) :
    CmpEqLeft c := by
  intro ma mb me h
  rcases hga : g ma with _ | da
  · rcases hgb : g mb with _ | db
    · rcases hge : g me with _ | de
      · rw [hnn ma me hga hge, hnn mb me hgb hge]
      · rw [hns ma me de hga hge, hns mb me de hgb hge]
    · rw [hns ma mb db hga hgb] at h
      cases h
  · rcases hgb : g mb with _ | db
    · rw [hsn ma mb da hga hgb] at h
      cases h
    · rw [hss ma mb da db hga hgb] at h
      have hd : da = db := linCmp_eq_eq.mp (ordering_swap_eq_eq.mp h)
      subst hd
      rcases hge : g me with _ | de
      · rw [hsn ma me da hga hge, hsn mb me da hgb hge]
      · rw [hss ma me da de hga hge, hss mb me da de hgb hge]

theorem cvd_some_some (ma mb : Option PeerMonitoringMetadata) (a b : Nat)
    (h1 : get_distance_from_validators ma = some a)
    (h2 : get_distance_from_validators mb = some b) :
    compare_validator_distance ma mb = (linCmp a b).swap := by
  unfold compare_validator_distance
  rw [h1, h2]

theorem cvd_some_none (ma mb : Option PeerMonitoringMetadata) (a : Nat)
    (h1 : get_distance_from_validators ma = some a)
    (h2 : get_distance_from_validators mb = none) :
    compare_validator_distance ma mb = .gt := by
  unfold compare_validator_distance
  rw [h1, h2]

theorem cvd_none_some (ma mb : Option PeerMonitoringMetadata) (b : Nat)
    (h1 : get_distance_from_validators ma = none)
    (h2 : get_distance_from_validators mb = some b) :
    compare_validator_distance ma mb = .lt := by
  unfold compare_validator_distance
  rw [h1, h2]

theorem cvd_none_none (ma mb : Option PeerMonitoringMetadata)
    (h1 : get_distance_from_validators ma = none)
    (h2 : get_distance_from_validators mb = none) :
    compare_validator_distance ma mb = .eq := by
  unfold compare_validator_distance
  rw [h1, h2]

theorem cpl_some_some (ma mb : Option PeerMonitoringMetadata) (a b : ℚ)
    (h1 : get_peer_ping_latency ma = some a)
    (h2 : get_peer_ping_latency mb = some b) :
    compare_ping_latency ma mb = (linCmp a b).swap := by
  unfold compare_ping_latency
  rw [h1, h2]

theorem cpl_some_none (ma mb : Option PeerMonitoringMetadata) (a : ℚ)
    (h1 : get_peer_ping_latency ma = some a)
    (h2 : get_peer_ping_latency mb = none) :
    compare_ping_latency ma mb = .gt := by
  unfold compare_ping_latency
  rw [h1, h2]

theorem cpl_none_some (ma mb : Option PeerMonitoringMetadata) (b : ℚ)
    (h1 : get_peer_ping_latency ma = none)
    (h2 : get_peer_ping_latency mb = some b) :
    compare_ping_latency ma mb = .lt := by
  unfold compare_ping_latency
  rw [h1, h2]

theorem cpl_none_none (ma mb : Option PeerMonitoringMetadata)
    (h1 : get_peer_ping_latency ma = none)
    (h2 : get_peer_ping_latency mb = none) :
    compare_ping_latency ma mb = .eq := by
  unfold compare_ping_latency
  rw [h1, h2]

theorem cvd_antisym : CmpAntisym compare_validator_distance :=
  optRev_antisym get_distance_from_validators compare_validator_distance
    cvd_some_some cvd_some_none cvd_none_some cvd_none_none

theorem cvd_transGt : CmpTransGt compare_validator_distance :=
  optRev_transGt get_distance_from_validators compare_validator_distance
    cvd_some_some cvd_some_none cvd_none_some cvd_none_none

theorem cvd_eqLeft : CmpEqLeft compare_validator_distance :=
  optRev_eqLeft get_distance_from_validators compare_validator_distance
    cvd_some_some cvd_some_none cvd_none_some cvd_none_none

theorem cpl_antisym : CmpAntisym compare_ping_latency :=
  optRev_antisym get_peer_ping_latency compare_ping_latency
    cpl_some_some cpl_some_none cpl_none_some cpl_none_none

theorem cpl_transGt : CmpTransGt compare_ping_latency :=
  optRev_transGt get_peer_ping_latency compare_ping_latency
    cpl_some_some cpl_some_none cpl_none_some cpl_none_none

theorem cpl_eqLeft : CmpEqLeft compare_ping_latency :=
  optRev_eqLeft get_peer_ping_latency compare_ping_latency
    cpl_some_some cpl_some_none cpl_none_some cpl_none_none

theorem netStage_antisym : CmpAntisym compareNetworkStage := by
  intro a b
  exact cmpPull_antisym
    (fun pa : PeerNetworkId × Option PeerMonitoringMetadata => pa.1.network_id.rank)
    (cmpSwapRev_antisym linCmp_antisym) a b

theorem netStage_transGt : CmpTransGt compareNetworkStage := by
  intro a b e h1 h2
  exact cmpPull_transGt
    (fun pa : PeerNetworkId × Option PeerMonitoringMetadata => pa.1.network_id.rank)
    (cmpSwapRev_transGt linCmp_antisym linCmp_transGt) a b e h1 h2

theorem netStage_eqLeft : CmpEqLeft compareNetworkStage := by
  intro a b e h
  exact cmpPull_eqLeft
    (fun pa : PeerNetworkId × Option PeerMonitoringMetadata => pa.1.network_id.rank)
    (cmpSwapRev_eqLeft linCmp_eqLeft) a b e h

theorem distStage_antisym : CmpAntisym compareDistanceStage := by
  intro a b
  exact cvd_antisym a.2 b.2

theorem distStage_transGt : CmpTransGt compareDistanceStage := by
  intro a b e h1 h2
  exact cvd_transGt a.2 b.2 e.2 h1 h2

theorem distStage_eqLeft : CmpEqLeft compareDistanceStage := by
  intro a b e h
  exact cvd_eqLeft a.2 b.2 e.2 h

theorem pingStage_antisym : CmpAntisym comparePingStage := by
  intro a b
  exact cpl_antisym a.2 b.2

theorem pingStage_transGt : CmpTransGt comparePingStage := by
  intro a b e h1 h2
  exact cpl_transGt a.2 b.2 e.2 h1 h2

theorem pingStage_eqLeft : CmpEqLeft comparePingStage := by
  intro a b e h
  exact cpl_eqLeft a.2 b.2 e.2 h

theorem hashStage_antisym (hash : Nat → Nat) : CmpAntisym (compareHashStage hash) := by
  intro a b
  exact cmpPull_antisym
    (fun pa : PeerNetworkId × Option PeerMonitoringMetadata => hash_peer_id hash pa.1)
    linCmp_antisym a b

theorem hashStage_transGt (hash : Nat → Nat) : CmpTransGt (compareHashStage hash) := by
  intro a b e h1 h2
  exact cmpPull_transGt
    (fun pa : PeerNetworkId × Option PeerMonitoringMetadata => hash_peer_id hash pa.1)
    linCmp_transGt a b e h1 h2

theorem hashStage_eqLeft (hash : Nat → Nat) : CmpEqLeft (compareHashStage hash) := by
  intro a b e h
  exact cmpPull_eqLeft
    (fun pa : PeerNetworkId × Option PeerMonitoringMetadata => hash_peer_id hash pa.1)
    linCmp_eqLeft a b e h

theorem prioritizedPeersCompare_eq_then (hash : Nat → Nat) :
    prioritizedPeersCompare hash =
      cmpThen compareNetworkStage
        (cmpThen compareDistanceStage
          (cmpThen comparePingStage (compareHashStage hash))) := by
  funext pa pb
  unfold prioritizedPeersCompare cmpThen compareNetworkStage compareDistanceStage
    comparePingStage compareHashStage
  cases compare_network_id pa.1.network_id pb.1.network_id <;> try rfl
  cases compare_validator_distance pa.2 pb.2 <;> try rfl
  cases compare_ping_latency pa.2 pb.2 <;> try rfl

theorem peersCompare_antisym (hash : Nat → Nat) :
    CmpAntisym (prioritizedPeersCompare hash) := by
  rw [prioritizedPeersCompare_eq_then]
  exact cmpThen_antisym netStage_antisym
    (cmpThen_antisym distStage_antisym
      (cmpThen_antisym pingStage_antisym (hashStage_antisym hash)))

theorem peersCompare_transGt (hash : Nat → Nat) :
    CmpTransGt (prioritizedPeersCompare hash) := by
  rw [prioritizedPeersCompare_eq_then]
  exact cmpThen_transGt netStage_antisym netStage_transGt netStage_eqLeft
    (cmpThen_transGt distStage_antisym distStage_transGt distStage_eqLeft
      (cmpThen_transGt pingStage_antisym pingStage_transGt pingStage_eqLeft
        (hashStage_transGt hash)))

theorem peersCompare_eqLeft (hash : Nat → Nat) :
    CmpEqLeft (prioritizedPeersCompare hash) := by
  rw [prioritizedPeersCompare_eq_then]
  exact cmpThen_eqLeft netStage_eqLeft
    (cmpThen_eqLeft distStage_eqLeft
      (cmpThen_eqLeft pingStage_eqLeft (hashStage_eqLeft hash)))

theorem ordering_isGE_iff {x : Ordering} : x.isGE = true ↔ x = .eq ∨ x = .gt := by
  cases x <;> simp [Ordering.isGE]

theorem ordering_swap_isLE (x : Ordering) : x.swap.isLE = x.isGE := by
  cases x <;> rfl

theorem peersLe_trans (hash : Nat → Nat)
    (a b e : PeerNetworkId × Option PeerMonitoringMetadata)
    (h1 : ((prioritizedPeersCompare hash a b).swap).isLE = true)
    (h2 : ((prioritizedPeersCompare hash b e).swap).isLE = true) :
    ((prioritizedPeersCompare hash a e).swap).isLE = true := by
  rw [ordering_swap_isLE] at h1 h2 ⊢
  rw [ordering_isGE_iff] at h1 h2 ⊢
  rcases h1 with h1 | h1
  · rcases h2 with h2 | h2
    · left
      rw [peersCompare_eqLeft hash a b e h1]
      exact h2
    · right
      rw [peersCompare_eqLeft hash a b e h1]
      exact h2
  · rcases h2 with h2 | h2
    · right
      rw [← cmpEqRight (peersCompare_antisym hash) (peersCompare_eqLeft hash) b e a h2]
      exact h1
    · exact Or.inr (peersCompare_transGt hash a b e h1 h2)

theorem peersLe_total (hash : Nat → Nat)
    (a b : PeerNetworkId × Option PeerMonitoringMetadata) :
    (((prioritizedPeersCompare hash a b).swap).isLE ||
      ((prioritizedPeersCompare hash b a).swap).isLE) = true := by
  rw [peersCompare_antisym hash a b]
  cases prioritizedPeersCompare hash a b <;> rfl

theorem cmpThen_left_dominates {α : Type} (c d : α → α → Ordering) (a b : α)
    (h : c a b ≠ .eq) : cmpThen c d a b = c a b := by
  unfold cmpThen
  rcases hc : c a b with _ | _ | _
  · rfl
  · exact absurd hc h
  · rfl

theorem cmpThen_left_eq {α : Type} (c d : α → α → Ordering) (a b : α)
    (h : c a b = .eq) : cmpThen c d a b = d a b := by
  unfold cmpThen
  rw [h]
  rfl

/-- C8: `PrioritizedPeersComparator::compare` composes lexicographically -
the network id dominates regardless of monitoring metadata (Validator above
Vfn above Public); only among peers on the same network is the lower
validator distance preferred (a present distance above an absent one), then
the lower ping latency (a present latency above an absent one), with the
hashed peer id as the final tie-break; and `sort_peers_by_priority` lists
peers in descending order of this rank. -/
theorem claim_C8_peer_priority :
    (∀ (hash : Nat → Nat) pa pb, compareNetworkStage pa pb ≠ .eq →
      prioritizedPeersCompare hash pa pb = compareNetworkStage pa pb) ∧
    (compare_network_id .Validator .Vfn = .gt ∧
      compare_network_id .Vfn .Public = .gt ∧
      compare_network_id .Validator .Public = .gt) ∧
    (∀ (hash : Nat → Nat) pa pb, compareNetworkStage pa pb = .eq →
      compareDistanceStage pa pb ≠ .eq →
      prioritizedPeersCompare hash pa pb = compareDistanceStage pa pb) ∧
    (∀ ma mb da db, get_distance_from_validators ma = some da →
      get_distance_from_validators mb = some db → da < db →
      compare_validator_distance ma mb = .gt) ∧
    (∀ ma mb da, get_distance_from_validators ma = some da →
      get_distance_from_validators mb = none →
      compare_validator_distance ma mb = .gt) ∧
    (∀ (hash : Nat → Nat) pa pb, compareNetworkStage pa pb = .eq →
      compareDistanceStage pa pb = .eq → comparePingStage pa pb ≠ .eq →
      prioritizedPeersCompare hash pa pb = comparePingStage pa pb) ∧
    (∀ ma mb la lb, get_peer_ping_latency ma = some la →
      get_peer_ping_latency mb = some lb → la < lb →
      compare_ping_latency ma mb = .gt) ∧
    (∀ ma mb la, get_peer_ping_latency ma = some la →
      get_peer_ping_latency mb = none → compare_ping_latency ma mb = .gt) ∧
    (∀ (hash : Nat → Nat) pa pb, compareNetworkStage pa pb = .eq →
      compareDistanceStage pa pb = .eq → comparePingStage pa pb = .eq →
      prioritizedPeersCompare hash pa pb = compareHashStage hash pa pb) ∧
    (∀ (hash : Nat → Nat) peers, ∃ sorted, sorted.Perm peers ∧
      List.Pairwise
        (fun a b => (prioritizedPeersCompare hash a b).isGE = true) sorted ∧
      sort_peers_by_priority hash peers = sorted.map (fun p => p.1)) := by
  refine ⟨?_, ⟨by decide, by decide, by decide⟩, ?_, ?_, ?_, ?_, ?_, ?_, ?_, ?_⟩
  · intro hash pa pb h
    rw [prioritizedPeersCompare_eq_then]
    exact cmpThen_left_dominates _ _ pa pb h
  · intro hash pa pb hn hd
    rw [prioritizedPeersCompare_eq_then, cmpThen_left_eq _ _ pa pb hn]
    exact cmpThen_left_dominates _ _ pa pb hd
  · intro ma mb da db h1 h2 hlt
    rw [cvd_some_some ma mb da db h1 h2, ordering_swap_eq_gt, linCmp_eq_lt]
    exact hlt
  · intro ma mb da h1 h2
    exact cvd_some_none ma mb da h1 h2
  · intro hash pa pb hn hd hp
    rw [prioritizedPeersCompare_eq_then, cmpThen_left_eq _ _ pa pb hn,
      cmpThen_left_eq _ _ pa pb hd]
    exact cmpThen_left_dominates _ _ pa pb hp
  · intro ma mb la lb h1 h2 hlt
    rw [cpl_some_some ma mb la lb h1 h2, ordering_swap_eq_gt, linCmp_eq_lt]
    exact hlt
  · intro ma mb la h1 h2
    exact cpl_some_none ma mb la h1 h2
  · intro hash pa pb hn hd hp
    rw [prioritizedPeersCompare_eq_then, cmpThen_left_eq _ _ pa pb hn,
      cmpThen_left_eq _ _ pa pb hd, cmpThen_left_eq _ _ pa pb hp]
  · intro hash peers
    refine ⟨peers.mergeSort
        (fun a b => ((prioritizedPeersCompare hash a b).swap).isLE),
      List.mergeSort_perm peers _, ?_, rfl⟩
    have hs := @List.sorted_mergeSort _
      (fun a b => ((prioritizedPeersCompare hash a b).swap).isLE)
      (fun a b e h1 h2 => peersLe_trans hash a b e h1 h2)
      (fun a b => peersLe_total hash a b) peers
    apply List.Pairwise.imp ?_ hs
    intro a b h
    rw [← ordering_swap_isLE]
    exact h

/-- Witness for C8: a validator peer without metadata outranks a VFN peer
with full metadata, by the network-dominance clause of the theorem. -/
theorem claim_C8_peer_priority_witness :
    compareNetworkStage ((⟨.Validator, 1⟩ : PeerNetworkId), none)
        ((⟨.Vfn, 2⟩ : PeerNetworkId), some ⟨some 1, some ⟨0⟩⟩) ≠ .eq ∧
    prioritizedPeersCompare (fun x => x) ((⟨.Validator, 1⟩ : PeerNetworkId), none)
        ((⟨.Vfn, 2⟩ : PeerNetworkId), some ⟨some 1, some ⟨0⟩⟩) =
      compareNetworkStage ((⟨.Validator, 1⟩ : PeerNetworkId), none)
        ((⟨.Vfn, 2⟩ : PeerNetworkId), some ⟨some 1, some ⟨0⟩⟩) :=
  ⟨by decide, claim_C8_peer_priority.1 (fun x => x) _ _ (by decide)⟩

theorem find_position_none (p : PeerNetworkId) :
    ∀ l : List PeerNetworkId, p ∉ l →
      find_position (fun q => q == p) l = none := by
  intro l
  induction l with
  | nil => intro _; rfl
  | cons q t ih =>
    intro h
    have hq : (q == p) = false := by
      rw [beq_eq_false_iff_ne]
      intro hqp
      exact h (hqp ▸ List.mem_cons_self q t)
    simp only [find_position, hq, Bool.false_eq_true, if_false]
    rw [ih (fun hm => h (List.mem_cons_of_mem q hm))]
    rfl

theorem find_position_first (p : PeerNetworkId) :
    ∀ l : List PeerNetworkId, p ∈ l →
      ∃ i, find_position (fun q => q == p) l = some (i, p) ∧ i < l.length ∧
        l.getD i default = p ∧ ∀ j < i, l.getD j default ≠ p := by
  intro l
  induction l with
  | nil => intro h; cases h
  | cons q t ih =>
    intro h
    by_cases hq : q = p
    · subst hq
      refine ⟨0, ?_, by simp, rfl, fun j hj => absurd hj (Nat.not_lt_zero j)⟩
      simp [find_position]
    · have hqb : (q == p) = false := beq_eq_false_iff_ne.mpr hq
      have hpt : p ∈ t := by
        rcases List.mem_cons.mp h with h1 | h1
        · exact absurd h1.symm hq
        · exact h1
      rcases ih hpt with ⟨i, hfind, hlen, hget, hfirst⟩
      refine ⟨i + 1, ?_, by simp only [List.length_cons]; omega, hget, ?_⟩
      · simp only [find_position, hqb, Bool.false_eq_true, if_false, hfind]
        rfl
      · intro j hj
        cases j with
        | zero =>
          simp only [List.getD_cons_zero]
          exact hq
        | succ j1 =>
          simp only [List.getD_cons_succ]
          exact hfirst j1 (by omega)

/-- C9: `get_peer_priority` returns the zero-based position of the peer's
first occurrence in the prioritized peers list, and `usize::MAX` (the lowest
priority) when the peer does not appear in the list. -/
theorem claim_C9_get_peer_priority (l : List PeerNetworkId) (p : PeerNetworkId) :
    (p ∉ l → get_peer_priority l p = USIZE_MAX) ∧
    (p ∈ l → get_peer_priority l p < l.length ∧
      l.getD (get_peer_priority l p) default = p ∧
      ∀ j < get_peer_priority l p, l.getD j default ≠ p) := by
  constructor
  · intro h
    rw [get_peer_priority, find_position_none p l h]
  · intro h
    rcases find_position_first p l h with ⟨i, hfind, hlen, hget, hfirst⟩
    rw [get_peer_priority, hfind]
    exact ⟨hlen, hget, hfirst⟩

/-- Witness for C9: the second entry of a concrete two-peer list has
priority 1, found at its first occurrence. -/
theorem claim_C9_get_peer_priority_witness :
    ((⟨.Vfn, 5⟩ : PeerNetworkId) ∈
        [(⟨.Validator, 3⟩ : PeerNetworkId), ⟨.Vfn, 5⟩]) ∧
    (get_peer_priority [(⟨.Validator, 3⟩ : PeerNetworkId), ⟨.Vfn, 5⟩] ⟨.Vfn, 5⟩ <
        (([(⟨.Validator, 3⟩ : PeerNetworkId), ⟨.Vfn, 5⟩]).length) ∧
      ([(⟨.Validator, 3⟩ : PeerNetworkId), ⟨.Vfn, 5⟩]).getD
          (get_peer_priority [(⟨.Validator, 3⟩ : PeerNetworkId), ⟨.Vfn, 5⟩]
            ⟨.Vfn, 5⟩) default = ⟨.Vfn, 5⟩ ∧
      ∀ j < get_peer_priority [(⟨.Validator, 3⟩ : PeerNetworkId), ⟨.Vfn, 5⟩]
          ⟨.Vfn, 5⟩,
        ([(⟨.Validator, 3⟩ : PeerNetworkId), ⟨.Vfn, 5⟩]).getD j default ≠
          ⟨.Vfn, 5⟩) :=
  ⟨by decide, (claim_C9_get_peer_priority _ _).2 (by decide)⟩

/-- C10: at a concrete input, `cleanup_internal` removes the open request
whose deadline (10) has not yet passed at the current instant (5), and keeps
the request whose deadline (3) is already past - the opposite of the claimed
(and commented) behavior of dropping timed-out requests. -/
theorem claim_C10_cleanup_bug :
    cleanup_internal [(1, ⟨1, 0, 10⟩)] 5 = [] ∧
    cleanup_internal [(2, ⟨2, 0, 3⟩)] 5 = [(2, ⟨2, 0, 3⟩)] := by
  decide
